import Mathlib

/-!
Verification of the synai-platform RAG pipeline.

The Python services are shallowly embedded here: strings are `List Char`,
float arithmetic on distances/scores is modelled over `ℚ`, the ChromaDB
store's responses are passed in as explicit parameters, and code that can
raise is modelled with `Except`/`Option`.

Sources embedded:
* `backend/app/services/vector_service.py` — collection naming,
  `_split_text`, the three-stage `search` cascade with keyword rescoring;
* `backend/app/routers/llm.py` (`chat`) — citation scoring, deduplication
  and ranking;
* `backend/app/services/llm_service.py` — `generate_response` failure
  handling.
-/

/-! ## Basic character/string helpers -/

/-- Whitespace test used wherever Python calls `str.strip` / `str.split`. -/
def isWs (c : Char) : Bool := c.isWhitespace

/-- Python `str.strip()`: drop trailing whitespace, then leading whitespace. -/
def stripChars (s : List Char) : List Char :=
  ((s.reverse.dropWhile isWs).reverse).dropWhile isWs

/-- Accumulator worker for `splitWhitespace` (Python `str.split()`). -/
def splitWsAux (cur : List Char) : List Char → List (List Char)
  | [] => if cur = [] then [] else [cur.reverse]
  | c :: rest =>
    if isWs c then
      (if cur = [] then splitWsAux [] rest else cur.reverse :: splitWsAux [] rest)
    else splitWsAux (c :: cur) rest

/-- Python `str.split()`: split on whitespace runs, dropping empty pieces. -/
def splitWhitespace (s : List Char) : List (List Char) := splitWsAux [] s

/-- Python `" ".join(text.split())`: normalize whitespace runs to single spaces. -/
def normalizeWs (s : List Char) : List Char :=
  List.intercalate ([' ']) (splitWhitespace s)

/-- Python `str.lower()`, character-wise. -/
def lowerChars (s : List Char) : List Char := s.map Char.toLower

/-- Python prefix test: does `hay` start with `needle`? -/
def leadsWith : List Char → List Char → Bool
  | [], _ => true
  | _ :: _, [] => false
  | a :: as, b :: bs => a = b && leadsWith as bs

/-- Python substring test `needle in hay`. -/
def containsSub (needle : List Char) : List Char → Bool
  | [] => needle.isEmpty
  | c :: rest => leadsWith needle (c :: rest) || containsSub needle rest

/-! ## Collection naming (`vector_service.py` lines 98 and 237)

Both `process_document` and `search` compute
`collection_name = f"user_{user_id.replace('-', '_')}"`. -/

/-- Python `user_id.replace('-', '_')`: map every `-` to `_`. -/
def normalizeUserId (uid : List Char) : List Char :=
  uid.map (fun c => if c = '-' then '_' else c)

/-- Collection name computed by `VectorService.process_document` (line 98). -/
def processDocCollectionName (uid : List Char) : List Char :=
  ("user_").data ++ normalizeUserId uid

/-- Collection name computed by `VectorService.search` (line 237). -/
def searchCollectionName (uid : List Char) : List Char :=
  ("user_").data ++ normalizeUserId uid

/-! ## Stage-1 keyword rescoring (`vector_service.py` lines 278-283)

With pythainlp available the code computes
`boost = min(dist, match_ratio * 0.9); dist = max(0.01, dist - boost)`. -/

/-- The Stage-1 rescoring step applied to a candidate with distance `dist`
and keyword-overlap ratio `matchRatio`. -/
def keywordRescore (dist matchRatio : ℚ) : ℚ :=
  let boost := min dist (matchRatio * (9/10))
  max (1/100) (dist - boost)

/-! ## Citation scoring (`llm.py` lines 229-250) -/

/-- `score = 1.0 / (1.0 + (dist * 0.35))` (line 238). -/
def rawScore (d : ℚ) : ℚ := 1 / (1 + d * (35/100))

/-- Broad-query boost or baseline floor (lines 241-244). -/
def flooredScore (broad : Bool) (d : ℚ) : ℚ :=
  if broad then max (70/100) (rawScore d + 10/100) else max (45/100) (rawScore d)

/-- Confident top-match boost (lines 247-248): if `dist < 0.4`,
`score = min(0.99, score * 1.1)`. -/
def boostedScore (broad : Bool) (d : ℚ) : ℚ :=
  if d < 40/100 then min (99/100) (flooredScore broad d * (110/100))
  else flooredScore broad d

/-- Python `round(score, 3)` modelled with round-half-up on `ℚ`. -/
def round3 (x : ℚ) : ℚ := ((round (x * 1000) : ℤ) : ℚ) / 1000

/-- `current_score = round(score, 3)` (line 250): the complete per-result
citation relevance score as a function of the query classification and the
result's distance. -/
def citationScore (broad : Bool) (d : ℚ) : ℚ := round3 (boostedScore broad d)

/-! ## Retrieval cascade (`vector_service.py` lines 222-330)

The ChromaDB store is external: the Stage-1 candidate list (after the
rescoring and the `dist < 1.8` acceptance of lines 263-298), the pool
returned by `collection.get(where=..., limit=50)` and the pool returned by
`collection.get(where=..., limit=5)` are passed in as parameters. -/

/-- A stored chunk as returned by `collection.get` (text plus its metadata,
kept opaque). -/
structure Chunk where
  content : List Char
  metadata : List Char
deriving DecidableEq

/-- An entry of the `documents` result list built by `search`. -/
structure ScoredDoc where
  content : List Char
  metadata : List Char
  distance : ℚ
deriving DecidableEq

/-- `query_words = set(query.lower().split())` (line 304). -/
def queryWords (query : List Char) : List (List Char) :=
  splitWhitespace (lowerChars query)

/-- `any(word in doc_lower for word in query_words if len(word) > 2)`
(line 307). -/
def chunkMatches (qws : List (List Char)) (c : Chunk) : Bool :=
  qws.any (fun w => decide (2 < w.length) && containsSub w (lowerChars c.content))

/-- The Stage-2 loop (lines 305-313): walk the pool, append matching chunks
with fixed distance `0.4`, and break as soon as `n_results` are collected
(the length test happens after the append, as in the source). -/
def stage2Loop (qws : List (List Char)) (n : ℕ) : List Chunk → List ScoredDoc → List ScoredDoc
  | [], acc => acc
  | c :: rest, acc =>
    if chunkMatches qws c then
      let acc' := acc ++ [⟨c.content, c.metadata, 4/10⟩]
      if n ≤ acc'.length then acc' else stage2Loop qws n rest acc'
    else stage2Loop qws n rest acc

/-- Stage 3 (lines 318-324): return the whole `limit=5` pool with fixed
distance `0.6`. -/
def stage3 (pool : List Chunk) : List ScoredDoc :=
  pool.map (fun c => ⟨c.content, c.metadata, 6/10⟩)

/-- The fallback control flow of `search` after Stage 1 (lines 300-327):
Stage 2 only when Stage 1 accepted nothing and the query is non-empty,
Stage 3 only when the result list is still empty. -/
def searchCascade (stage1docs : List ScoredDoc) (query : List Char) (n : ℕ)
    (pool50 pool5 : List Chunk) : List ScoredDoc :=
  let docs := stage1docs
  let docs2 := if docs = [] ∧ query ≠ [] then stage2Loop (queryWords query) n pool50 [] else docs
  if docs2 = [] then stage3 pool5 else docs2

/-- The body of the `try` block of `search` (lines 253-327) with each store
call modelled as an `Except` value: any store failure escapes as an error
(the Stage-2 and Stage-3 `collection.get` calls are only evaluated when
their stage runs). -/
def cascadeExc (stage1 : Except Unit (List ScoredDoc)) (query : List Char) (n : ℕ)
    (get50 get5 : Except Unit (List Chunk)) : Except Unit (List ScoredDoc) := do
  let docs ← stage1
  let docs2 ←
    if docs = [] ∧ query ≠ [] then do
      let pool ← get50
      pure (stage2Loop (queryWords query) n pool [])
    else pure docs
  if docs2 = [] then do
    let pool ← get5
    pure (stage3 pool)
  else pure docs2

/-- The whole of `VectorService.search` (lines 222-330): `None` client means
`get_client` failed (line 233), an erroring `coll` means `get_collection`
raised (line 241), and an erroring cascade means some store call inside the
`try` block raised (line 328); every failure path returns `[]`. -/
def searchSafe (client : Option Unit) (coll : Except Unit Unit)
    (stage1 : Except Unit (List ScoredDoc)) (query : List Char) (n : ℕ)
    (get50 get5 : Except Unit (List Chunk)) : List ScoredDoc :=
  match client with
  | none => []
  | some _ =>
    match coll with
    | .error _ => []
    | .ok _ =>
      match cascadeExc stage1 query n get50 get5 with
      | .ok docs => docs
      | .error _ => []

/-! ## Text splitting (`vector_service.py` lines 179-220, `_split_text`) -/

/-- Search downward for the greatest space index in `[start, start + k)`;
worker for `rfindSpace`. -/
def rfindSpaceAux (text : List Char) (start : ℕ) : ℕ → Option ℕ
  | 0 => none
  | k + 1 =>
    if text.getD (start + k) 'x' = ' ' then some (start + k)
    else rfindSpaceAux text start k

/-- Python `text.rfind(" ", start, e)` (line 213): the greatest index of a
space in `[start, e)`, or `none` (`-1` in the source). -/
def rfindSpace (text : List Char) (start e : ℕ) : Option ℕ :=
  rfindSpaceAux text start (e - start)

/-- Python slice `text[start:e]`. -/
def sliceList (text : List Char) (start e : ℕ) : List Char :=
  (text.drop start).take (e - start)

/-- The right edge of the window starting at `start` (lines 211-215, with
`chunk_size = 600`): nominally `start + 600`; if that is inside the text
and the last space strictly after `start + 300` exists, back off to it. -/
def windowEnd (text : List Char) (start : ℕ) : ℕ :=
  if start + 600 < text.length then
    match rfindSpace text start (start + 600) with
    | some ls => if start + 300 < ls then ls else start + 600
    | none => start + 600
  else start + 600

/-- `start = end - overlap` (line 219, with `overlap = 120`): the start of
the next window. -/
def nextStart (text : List Char) (start : ℕ) : ℕ :=
  windowEnd text start - 120

/-- The default-mode `while start < len(text)` loop (lines 210-219) with an
explicit fuel (iteration budget); fuel exhaustion truncates, and the
termination theorem shows `text.length + 1` iterations always suffice. -/
def defaultSplitFuel (text : List Char) : ℕ → ℕ → List (List Char)
  | 0, _ => []
  | fuel + 1, start =>
    if start < text.length then
      if stripChars (sliceList text start (windowEnd text start)) = [] then
        defaultSplitFuel text fuel (nextStart text start)
      else
        sliceList text start (windowEnd text start) ::
          defaultSplitFuel text fuel (nextStart text start)
    else []

/-- Default (non-Thai) mode of `_split_text` (lines 205-220): normalize
whitespace runs to single spaces, then run the sliding-window loop. -/
def defaultSplit (text : List Char) : List (List Char) :=
  let t := normalizeWs text
  defaultSplitFuel t (t.length + 1) 0

/-- Thai-mode sentence packing loop (lines 190-204): greedily append
sentences (each followed by a space) while the chunk stays within
`chunk_size = 600`, emitting stripped chunks at the boundaries. -/
def thaiLoop : List (List Char) → List Char → List (List Char)
  | [], cur => if cur = [] then [] else [stripChars cur]
  | s :: rest, cur =>
    if cur.length + s.length ≤ 600 then thaiLoop rest (cur ++ s ++ [' '])
    else (if cur = [] then [] else [stripChars cur]) ++ thaiLoop rest (s ++ [' '])

/-- Thai-optimized splitting (lines 188-204); the `sent_tokenize` output is
passed in, since pythainlp is an external library. -/
def thaiSplit (sentences : List (List Char)) : List (List Char) :=
  thaiLoop sentences []

/-- `re.search('[฀-๿]', text)` (line 186): does the text contain
a character of the Thai Unicode block? -/
def hasThaiChar (text : List Char) : Bool :=
  text.any (fun c => decide (0xe00 ≤ c.toNat) && decide (c.toNat ≤ 0xe7f))

/-- `VectorService._split_text` (lines 179-220) with the default
`chunk_size = 600`, `overlap = 120`: empty text gives no chunks; Thai text
uses sentence packing (over the externally tokenized `sentences`); other
text uses the sliding window. -/
def split_text (text : List Char) (sentences : List (List Char)) : List (List Char) :=
  if text = [] then []
  else if hasThaiChar text then thaiSplit sentences
  else defaultSplit text

/-! ## Citation building (`llm.py` lines 215-264) -/

/-- One merged search result as consumed by the citation loop: chunk text,
source file id, page label, distance. -/
structure SearchResult where
  content : List Char
  file_id : List Char
  page : List Char
  distance : ℚ
deriving DecidableEq

/-- The `Citation` pydantic model (llm.py lines 39-44). -/
structure Citation where
  source : List Char
  file_id : List Char
  page : List Char
  content : List Char
  relevance_score : ℚ
deriving DecidableEq

/-- The citation built for one search result (lines 253-260): display name
from the `file_names` map (defaulting to the id), 200-character preview,
and the rounded relevance score. -/
def resultCitation (names : List Char → List Char) (broad : Bool) (r : SearchResult) : Citation :=
  ⟨names r.file_id, r.file_id, r.page, r.content.take 200 ++ ("...").data,
   citationScore broad r.distance⟩

/-- `unique_citations[fid] = citation` with the strict-improvement guard of
line 253: insertion-ordered map update (Python dict semantics). -/
def updateCites (m : List (List Char × Citation)) (fid : List Char) (c : Citation) :
    List (List Char × Citation) :=
  match m with
  | [] => [(fid, c)]
  | (k, old) :: rest =>
    if k = fid then
      (if old.relevance_score < c.relevance_score then (k, c) :: rest else (k, old) :: rest)
    else (k, old) :: updateCites rest fid c

/-- The citation loop over the merged search results (lines 218-260):
results whose stripped content is empty are skipped, the rest update the
per-file map. -/
def buildCites (names : List Char → List Char) (broad : Bool) :
    List SearchResult → List (List Char × Citation) → List (List Char × Citation)
  | [], m => m
  | r :: rest, m =>
    if stripChars r.content = [] then buildCites names broad rest m
    else buildCites names broad rest (updateCites m r.file_id (resultCitation names broad r))

/-- Descending order on citations used by
`citations.sort(key=lambda x: x.relevance_score, reverse=True)` (line 264). -/
def citeGE (a b : Citation) : Prop := b.relevance_score ≤ a.relevance_score

instance : DecidableRel citeGE := fun a b =>
  inferInstanceAs (Decidable (b.relevance_score ≤ a.relevance_score))

instance : IsTotal Citation citeGE :=
  ⟨fun a b => (le_total b.relevance_score a.relevance_score).imp id id⟩

instance : IsTrans Citation citeGE :=
  ⟨fun _ _ _ h1 h2 => le_trans h2 h1⟩

/-- `citations = list(unique_citations.values())` sorted descending by
relevance (lines 262-264). -/
def citationsOf (names : List Char → List Char) (broad : Bool)
    (results : List SearchResult) : List Citation :=
  List.insertionSort citeGE ((buildCites names broad results []).map Prod.snd)

/-- The keys of the citation map (Python dict key view). -/
def keysOf (m : List (List Char × Citation)) : List (List Char) := m.map Prod.fst

/-- All scores the map currently stores for a file id (0 or 1 entries when
keys are nodup). -/
def mScores (k : List Char) (m : List (List Char × Citation)) : List ℚ :=
  (m.filter (fun p => p.1 = k)).map (fun p => p.2.relevance_score)

/-- The relevance scores that the results for file id `k` would produce. -/
def scoresOf (broad : Bool) (k : List Char) (results : List SearchResult) : List ℚ :=
  (results.filter (fun r => r.file_id = k)).map (fun r => citationScore broad r.distance)

/-! ## Completion orchestrator (`llm_service.py`) -/

/-- Outcome of the delegated provider call (the external completion
capability): generated text, or an exception message. -/
inductive DelegateOutcome where
  | success (text : List Char)
  | failure (message : List Char)
deriving DecidableEq

/-- The full response dictionary produced by `generate_response`; the
`error_type` key is absent (`none`) unless a branch sets it. -/
structure LLMResponse where
  content : List Char
  model : List Char
  prompt_tokens : ℕ
  completion_tokens : ℕ
  total_tokens : ℕ
  error_type : Option (List Char)
deriving DecidableEq

/-- `"429" in error_msg or "RESOURCE_EXHAUSTED" in error_msg`
(llm_service.py line 147). -/
def quotaPattern (msg : List Char) : Bool :=
  containsSub (("429").data) msg || containsSub (("RESOURCE_EXHAUSTED").data) msg

/-- The fixed quota-exceeded message returned by `_generate_google`
(line 150). -/
def quotaMessage : List Char :=
  ("⚠️ **Quota Exceeded (Google AI)**: ขออภัยครับ โควตาการใช้งานฟรีของ Google AI ของคุณเต็มแล้วในขณะนี้ โปรดรอสักครู่ (ประมาณ 1 นาที) หรือลองเปลี่ยนไปใช้ Provider รายอื่นในเมนูเลือก Model ด้านบนครับ").data

/-- `LLMService._generate_google` (lines 120-157): on success a normal
response (completion tokens estimated as `len(text) // 4`); on a
429/RESOURCE_EXHAUSTED failure the fixed quota response tagged
`error_type = "quota_exceeded"`; any other failure re-raises. -/
def generate_google (modelName : List Char) (promptTokens : ℕ) (outcome : DelegateOutcome) :
    Except (List Char) LLMResponse :=
  match outcome with
  | .success text =>
    .ok ⟨text, modelName, promptTokens, text.length / 4, promptTokens + text.length / 4, none⟩
  | .failure msg =>
    if quotaPattern msg then
      .ok ⟨quotaMessage, modelName, promptTokens, 0, promptTokens, some (("quota_exceeded").data)⟩
    else .error msg

/-- `LLMService.generate_response` (Google provider path, lines 72-107):
the `try` block delegates, and the `except` handler converts any raised
exception into a normal response whose content is an error string, with
`completion_tokens = 0` and no `error_type` key. -/
def generate_response (modelName : List Char) (promptTokens : ℕ) (outcome : DelegateOutcome) :
    LLMResponse :=
  match generate_google modelName promptTokens outcome with
  | .ok r => r
  | .error e =>
    ⟨("❌ **Error**: ").data ++ e, modelName, promptTokens, 0, promptTokens, none⟩

/-! # Theorems -/

/-! ## Helper lemmas -/

theorem normChar_inj {a b : Char} (ha : a ≠ '_') (hb : b ≠ '_')
    (h : (if a = '-' then '_' else a) = (if b = '-' then '_' else b)) : a = b := by
  by_cases h1 : a = '-' <;> by_cases h2 : b = '-' <;> simp [h1, h2] at h <;> subst_eqs <;>
    first
      | rfl
      | (exact absurd rfl hb)
      | (exact absurd rfl ha)

theorem normalizeUserId_inj : ∀ {a b : List Char}, '_' ∉ a → '_' ∉ b →
    normalizeUserId a = normalizeUserId b → a = b
  | [], [], _, _, _ => rfl
  | [], _ :: _, _, _, h => by simp [normalizeUserId] at h
  | _ :: _, [], _, _, h => by simp [normalizeUserId] at h
  | a :: as, b :: bs, ha, hb, h => by
    simp only [normalizeUserId, List.map_cons, List.cons.injEq] at h
    have h1 : a = b :=
      normChar_inj (fun hc => ha (hc ▸ List.mem_cons_self a as))
        (fun hc => hb (hc ▸ List.mem_cons_self b bs)) h.1
    have h2 : as = bs :=
      normalizeUserId_inj (fun hc => ha (List.mem_cons_of_mem a hc))
        (fun hc => hb (List.mem_cons_of_mem b hc)) h.2
    rw [h1, h2]

/-! ## C1: cross-user isolation of collection names -/

/-- Claim C1 (amended): the collection name used when writing
(`process_document`) and when searching (`search`) agree for the same user,
and for two distinct user ids neither of which contains an underscore (true
of the UUID-string ids the application passes), the two users' collection
names differ.  The key is derived deterministically by replacing `-` with
`_` and prefixing `user_`. -/
theorem collection_key_isolation (a b : List Char)
    (ha : '_' ∉ a) (hb : '_' ∉ b) (hab : a ≠ b) :
    processDocCollectionName a = searchCollectionName a ∧
    processDocCollectionName a ≠ searchCollectionName b := by
  refine ⟨rfl, fun h => hab ?_⟩
  have h2 : normalizeUserId a = normalizeUserId b := by
    simpa [processDocCollectionName, searchCollectionName] using h
  exact normalizeUserId_inj ha hb h2

theorem collection_key_isolation_witness :
    ('_' ∉ ("a").data ∧ '_' ∉ ("b").data ∧ ("a").data ≠ ("b").data) ∧
    (processDocCollectionName (("a").data) = searchCollectionName (("a").data) ∧
     processDocCollectionName (("a").data) ≠ searchCollectionName (("b").data)) :=
  ⟨by decide,
   collection_key_isolation (("a").data) (("b").data)
     (by decide) (by decide) (by decide)⟩

/-- Claim C1 counterexample: the user ids `a-b` and `a_b` are distinct, yet
the code assigns them the same collection name, so the claim as stated (over
arbitrary distinct user ids) is false. -/
theorem collection_key_collision_cex :
    processDocCollectionName (("a-b").data) = searchCollectionName (("a_b").data) ∧
    ("a-b").data ≠ ("a_b").data := by
  constructor
  · decide
  · decide

/-! ## C2: keyword rescoring bounds -/

/-- Claim C2 (amended): for a Stage-1 candidate with distance `d ≥ 0` and
keyword-overlap ratio `r > 0`, the rescored distance equals
`max(0.01, d - min(d, r * 0.9))`, is never negative, never exceeds
`max(d, 0.01)`, and never exceeds the original distance `d` whenever
`d ≥ 0.01` (for `d < 0.01` it is raised to `0.01`, which exceeds `d`). -/
theorem keyword_rescore_bounds (d r : ℚ) (hd : 0 ≤ d) (hr : 0 < r) :
    keywordRescore d r = max (1/100) (d - min d (r * (9/10))) ∧
    0 ≤ keywordRescore d r ∧
    keywordRescore d r ≤ max d (1/100) ∧
    (1/100 ≤ d → keywordRescore d r ≤ d) := by
  have hboost : 0 ≤ min d (r * (9/10)) :=
    le_min hd (mul_nonneg hr.le (by norm_num))
  have hsub : d - min d (r * (9/10)) ≤ d := sub_le_self d hboost
  refine ⟨rfl, ?_, ?_, ?_⟩
  · exact le_trans (by norm_num) (le_max_left _ _)
  · exact max_le (le_max_right _ _) (le_trans hsub (le_max_left _ _))
  · intro h1
    exact max_le h1 hsub

theorem keyword_rescore_bounds_witness :
    ((0 : ℚ) ≤ 1 ∧ (0 : ℚ) < 1/2) ∧
    (keywordRescore 1 (1/2) = max (1/100) (1 - min 1 ((1/2) * (9/10))) ∧
     0 ≤ keywordRescore 1 (1/2) ∧
     keywordRescore 1 (1/2) ≤ max 1 (1/100) ∧
     (1/100 ≤ (1 : ℚ) → keywordRescore 1 (1/2) ≤ 1)) :=
  ⟨by norm_num, keyword_rescore_bounds 1 (1/2) (by norm_num) (by norm_num)⟩

/-- Claim C2 counterexample: at distance `d = 0.005` with ratio `r = 1` the
rescored distance is `0.01 > d`, so "never exceeds the original distance"
fails for `d < 0.01`. -/
theorem keyword_rescore_exceeds_cex :
    keywordRescore (1/200) 1 = 1/100 ∧ ¬ keywordRescore (1/200) 1 ≤ 1/200 := by
  constructor
  · simp [keywordRescore]
    norm_num [min_def, max_def]
  · simp [keywordRescore]
    norm_num [min_def, max_def]

/-! ## C4: citation score bounds and monotonicity -/

theorem rawScore_anti {d1 d2 : ℚ} (h1 : 0 ≤ d1) (h12 : d1 ≤ d2) :
    rawScore d2 ≤ rawScore d1 := by
  unfold rawScore
  exact one_div_le_one_div_of_le (by linarith) (by linarith)

theorem rawScore_le_bound {d : ℚ} (h : 40/100 ≤ d) : rawScore d ≤ 50/57 := by
  unfold rawScore
  calc 1 / (1 + d * (35/100)) ≤ 1 / (57/50 : ℚ) :=
        one_div_le_one_div_of_le (by norm_num) (by linarith)
    _ = 50/57 := by norm_num

theorem flooredScore_anti (broad : Bool) {d1 d2 : ℚ} (h1 : 0 ≤ d1) (h12 : d1 ≤ d2) :
    flooredScore broad d2 ≤ flooredScore broad d1 := by
  have hr := rawScore_anti h1 h12
  unfold flooredScore
  cases broad
  · show max (45/100) (rawScore d2) ≤ max (45/100) (rawScore d1)
    exact max_le_max le_rfl hr
  · show max (70/100) (rawScore d2 + 10/100) ≤ max (70/100) (rawScore d1 + 10/100)
    exact max_le_max le_rfl (add_le_add_right hr _)

theorem flooredScore_lb (broad : Bool) (d : ℚ) : 45/100 ≤ flooredScore broad d := by
  unfold flooredScore
  cases broad
  · show (45/100 : ℚ) ≤ max (45/100) (rawScore d)
    exact le_max_left _ _
  · show (45/100 : ℚ) ≤ max (70/100) (rawScore d + 10/100)
    exact le_trans (by norm_num) (le_max_left _ _)

theorem flooredScore_le99 (broad : Bool) {d : ℚ} (h : 40/100 ≤ d) :
    flooredScore broad d ≤ 99/100 := by
  have hr := rawScore_le_bound h
  unfold flooredScore
  cases broad
  · show max (45/100) (rawScore d) ≤ 99/100
    exact max_le (by norm_num) (le_trans hr (by norm_num))
  · show max (70/100) (rawScore d + 10/100) ≤ 99/100
    exact max_le (by norm_num) (by linarith)

theorem boostedScore_lb (broad : Bool) (d : ℚ) : 45/100 ≤ boostedScore broad d := by
  have hf := flooredScore_lb broad d
  unfold boostedScore
  split
  · refine le_min (by norm_num) ?_
    calc (45/100 : ℚ) ≤ 45/100 * (110/100) := by norm_num
      _ ≤ flooredScore broad d * (110/100) :=
          mul_le_mul_of_nonneg_right hf (by norm_num)
  · exact hf

theorem boostedScore_ub (broad : Bool) (d : ℚ) :
    boostedScore broad d ≤ 99/100 := by
  unfold boostedScore
  split
  · exact min_le_left _ _
  · next h => exact flooredScore_le99 broad (le_of_not_lt h)

theorem boostedScore_anti (broad : Bool) {d1 d2 : ℚ} (h1 : 0 ≤ d1) (h12 : d1 ≤ d2) :
    boostedScore broad d2 ≤ boostedScore broad d1 := by
  have hf := flooredScore_anti broad h1 h12
  have hf1 := flooredScore_lb broad d1
  unfold boostedScore
  by_cases hb1 : d1 < 40/100 <;> by_cases hb2 : d2 < 40/100
  · simp only [hb1, hb2, if_true]
    exact min_le_min le_rfl (mul_le_mul_of_nonneg_right hf (by norm_num))
  · simp only [hb1, hb2, if_true, if_neg hb2]
    exact le_min (flooredScore_le99 broad (le_of_not_lt hb2))
      (le_trans hf (le_mul_of_one_le_right (by linarith) (by norm_num)))
  · exact absurd (lt_of_le_of_lt h12 hb2) hb1
  · simp only [if_neg hb1, if_neg hb2]
    exact hf

theorem round3_mono {x y : ℚ} (h : x ≤ y) : round3 x ≤ round3 y := by
  unfold round3
  have h2 : round (x * 1000) ≤ round (y * 1000) := by
    rw [round_eq, round_eq]
    exact Int.floor_le_floor (by linarith)
  have h3 : ((round (x * 1000) : ℤ) : ℚ) ≤ ((round (y * 1000) : ℤ) : ℚ) := by
    exact_mod_cast h2
  linarith

theorem round3_const45 : round3 (45/100 : ℚ) = 45/100 := by
  unfold round3
  rw [show (45/100 : ℚ) * 1000 = ((450 : ℤ) : ℚ) by norm_num, round_intCast]
  norm_num

theorem round3_const99 : round3 (99/100 : ℚ) = 99/100 := by
  unfold round3
  rw [show (99/100 : ℚ) * 1000 = ((990 : ℤ) : ℚ) by norm_num, round_intCast]
  norm_num

/-- Claim C4: every citation relevance score is `round3` of the
floored/boosted transform of `1 / (1 + d * 0.35)`; for non-broad queries the
resulting score lies in `[0.45, 0.99]`, and for a fixed query classification
the score is monotonically non-increasing in the distance `d`. -/
theorem citation_score_bounds_mono (broad : Bool) (d d1 d2 : ℚ)
    (hd : 0 ≤ d) (h1 : 0 ≤ d1) (h12 : d1 ≤ d2) :
    45/100 ≤ citationScore false d ∧
    citationScore false d ≤ 99/100 ∧
    citationScore broad d2 ≤ citationScore broad d1 := by
  unfold citationScore
  refine ⟨?_, ?_, round3_mono (boostedScore_anti broad h1 h12)⟩
  · rw [← round3_const45]
    exact round3_mono (boostedScore_lb false d)
  · rw [← round3_const99]
    exact round3_mono (boostedScore_ub false d)

theorem citation_score_bounds_mono_witness :
    ((0:ℚ) ≤ 1 ∧ (0:ℚ) ≤ 0 ∧ (0:ℚ) ≤ 2) ∧
    (45/100 ≤ citationScore false 1 ∧
     citationScore false 1 ≤ 99/100 ∧
     citationScore true 2 ≤ citationScore true 0) :=
  ⟨by norm_num,
   citation_score_bounds_mono true 1 0 2 (by norm_num) (by norm_num) (by norm_num)⟩

/-! ## C9: completion failure handling -/

/-- Claim C9 (amended): whenever the delegated provider call inside
`generate_response` raises, `generate_response` does not propagate the
exception; it returns a normal response whose content is a user-visible
error message and whose `completion_tokens` is `0` (`total_tokens` falls
back to the prompt estimate).  The response carries the classification
`quota_exceeded` exactly in the Google quota-exhaustion case
(message containing `429` or `RESOURCE_EXHAUSTED`); other failures carry no
classification annotation. -/
theorem completion_failure_handling (modelName msg : List Char) (pt : ℕ) :
    (generate_response modelName pt (DelegateOutcome.failure msg)).completion_tokens = 0 ∧
    (generate_response modelName pt (DelegateOutcome.failure msg)).total_tokens = pt ∧
    (generate_response modelName pt (DelegateOutcome.failure msg)).content
      = (if quotaPattern msg then quotaMessage else ("❌ **Error**: ").data ++ msg) ∧
    (generate_response modelName pt (DelegateOutcome.failure msg)).error_type
      = (if quotaPattern msg then some (("quota_exceeded").data) else none) := by
  cases hq : quotaPattern msg <;>
    simp [generate_response, generate_google, hq]

/-- Claim C9 counterexample: for a generic (non-quota) provider exception,
the returned response has NO error classification (`error_type` is absent),
so "annotated with an error classification" fails as stated; the content is
still an error message and `completion_tokens = 0`. -/
theorem completion_failure_no_annotation_cex :
    (generate_response (("gemini-2.0-flash").data) 5
        (DelegateOutcome.failure (("boom").data))).error_type = none ∧
    (generate_response (("gemini-2.0-flash").data) 5
        (DelegateOutcome.failure (("boom").data))).completion_tokens = 0 ∧
    (generate_response (("gemini-2.0-flash").data) 5
        (DelegateOutcome.failure (("boom").data))).content = ("❌ **Error**: boom").data := by
  decide

/-! ## C8: search never raises past its boundary -/

/-- Claim C8: the `search` operation never raises past its boundary — if the
index client is unavailable, if the user's collection does not exist, or if
any underlying store call raises (the Stage-1 query, the Stage-2 pool fetch,
or the Stage-3 pool fetch), `search` returns the empty list; when every
store call succeeds it returns exactly the pure cascade result. -/
theorem search_degrades_to_empty (coll : Except Unit Unit)
    (stage1 : Except Unit (List ScoredDoc)) (query : List Char) (n : ℕ)
    (get50 get5 : Except Unit (List Chunk))
    (s1d : List ScoredDoc) (p50 p5 : List Chunk) (hq : query ≠ []) :
    searchSafe none coll stage1 query n get50 get5 = [] ∧
    searchSafe (some ()) (.error ()) stage1 query n get50 get5 = [] ∧
    searchSafe (some ()) (.ok ()) (.error ()) query n get50 get5 = [] ∧
    searchSafe (some ()) (.ok ()) (.ok []) query n (.error ()) get5 = [] ∧
    (stage2Loop (queryWords query) n p50 [] = [] →
      searchSafe (some ()) (.ok ()) (.ok []) query n (.ok p50) (.error ()) = []) ∧
    searchSafe (some ()) (.ok ()) (.ok s1d) query n (.ok p50) (.ok p5)
      = searchCascade s1d query n p50 p5 := by
  refine ⟨rfl, rfl, rfl, ?_, ?_, ?_⟩
  · simp [searchSafe, cascadeExc, hq, Except.instMonad, Except.bind, Except.map, Except.pure]
  · intro h2
    simp [searchSafe, cascadeExc, hq, h2, Except.instMonad, Except.bind, Except.map,
      Except.pure]
  · by_cases h1 : s1d = [] ∧ query ≠ []
    · obtain ⟨h1a, -⟩ := h1
      subst h1a
      by_cases h2 : stage2Loop (queryWords query) n p50 [] = [] <;>
        simp [searchSafe, cascadeExc, searchCascade, hq, h2, Except.instMonad, Except.bind,
          Except.map, Except.pure]
    · have h1b : ¬ s1d = [] := fun hc => h1 ⟨hc, hq⟩
      simp [searchSafe, cascadeExc, searchCascade, h1b, Except.instMonad, Except.bind,
        Except.map, Except.pure]

theorem search_degrades_to_empty_witness :
    (("q").data ≠ [] ∧ stage2Loop (queryWords (("q").data)) 3 [] [] = []) ∧
    (searchSafe none (.ok ()) (.ok []) (("q").data) 3 (.ok []) (.ok []) = [] ∧
     searchSafe (some ()) (.error ()) (.ok []) (("q").data) 3 (.ok []) (.ok []) = [] ∧
     searchSafe (some ()) (.ok ()) (.error ()) (("q").data) 3 (.ok []) (.ok []) = [] ∧
     searchSafe (some ()) (.ok ()) (.ok []) (("q").data) 3 (.error ()) (.ok []) = [] ∧
     (stage2Loop (queryWords (("q").data)) 3 [] [] = [] →
       searchSafe (some ()) (.ok ()) (.ok []) (("q").data) 3 (.ok []) (.error ()) = []) ∧
     searchSafe (some ()) (.ok ()) (.ok []) (("q").data) 3 (.ok []) (.ok [])
       = searchCascade [] (("q").data) 3 [] []) :=
  ⟨⟨by decide, by decide⟩,
   search_degrades_to_empty (.ok ()) (.ok []) (("q").data) 3 (.ok []) (.ok [])
     [] [] [] (by decide)⟩

/-! ## C3: fallback cascade -/

theorem stage2Loop_eq_take (qws : List (List Char)) (n : ℕ) :
    ∀ (pool : List Chunk) (acc : List ScoredDoc), acc.length < n →
      stage2Loop qws n pool acc
        = acc ++ ((pool.filter (chunkMatches qws)).take (n - acc.length)).map
            (fun c => ⟨c.content, c.metadata, 4/10⟩)
  | [], acc, _ => by simp [stage2Loop]
  | c :: rest, acc, h => by
    by_cases hm : chunkMatches qws c
    · rw [stage2Loop, if_pos hm]
      by_cases hn : n ≤ (acc ++ [(⟨c.content, c.metadata, 4/10⟩ : ScoredDoc)]).length
      · rw [if_pos hn]
        have h1 : n - acc.length = 1 := by
          simp only [List.length_append, List.length_singleton] at hn
          omega
        simp [List.filter_cons, hm, h1]
      · rw [if_neg hn]
        have hlt : (acc ++ [(⟨c.content, c.metadata, 4/10⟩ : ScoredDoc)]).length < n := by
          omega
        rw [stage2Loop_eq_take qws n rest _ hlt]
        have h2 : n - acc.length = (n - (acc ++ [(⟨c.content, c.metadata, 4/10⟩ :
            ScoredDoc)]).length) + 1 := by
          simp only [List.length_append, List.length_singleton] at hn ⊢
          omega
        simp [List.filter_cons, hm, h2, List.take_succ_cons]
    · rw [stage2Loop, if_neg hm]
      rw [stage2Loop_eq_take qws n rest acc h]
      simp [List.filter_cons, hm]

/-- Claim C3: Stage 2 runs only if Stage 1 produced no accepted candidates
and the query is non-empty; it keeps, in pool order, exactly the first
`n_results` chunks of the (at most 50 element) pool whose lowercased text
contains at least one query token of length > 2, each with distance exactly
`0.4`; Stage 3 runs only if Stage 2 also produced nothing (in particular
when the query is empty) and returns the whole `limit=5` pool — at most 5
chunks — each with distance exactly `0.6`. -/
theorem fallback_cascade_spec (query : List Char) (n : ℕ) (pool50 pool5 : List Chunk)
    (hq : query ≠ []) (hn : 1 ≤ n) (h5 : pool5.length ≤ 5) :
    searchCascade [] query n pool50 pool5
      = (if stage2Loop (queryWords query) n pool50 [] = [] then stage3 pool5
         else stage2Loop (queryWords query) n pool50 []) ∧
    stage2Loop (queryWords query) n pool50 []
      = ((pool50.filter (chunkMatches (queryWords query))).take n).map
          (fun c => ⟨c.content, c.metadata, 4/10⟩) ∧
    (∀ d ∈ stage2Loop (queryWords query) n pool50 [],
        d.distance = 4/10 ∧
        ∃ w ∈ queryWords query, 2 < w.length ∧
          containsSub w (lowerChars d.content) = true) ∧
    (stage2Loop (queryWords query) n pool50 []).length ≤ n ∧
    (∀ d ∈ stage3 pool5, d.distance = 6/10) ∧
    (stage3 pool5).length ≤ 5 ∧
    (∀ docs : List ScoredDoc, docs ≠ [] → searchCascade docs query n pool50 pool5 = docs) ∧
    (∀ m : ℕ, searchCascade [] [] m pool50 pool5 = stage3 pool5) := by
  have htake : stage2Loop (queryWords query) n pool50 []
      = ((pool50.filter (chunkMatches (queryWords query))).take n).map
          (fun c => ⟨c.content, c.metadata, 4/10⟩) := by
    have h0 : ([] : List ScoredDoc).length < n := by simpa using hn
    simpa using stage2Loop_eq_take (queryWords query) n pool50 [] h0
  refine ⟨?_, htake, ?_, ?_, ?_, ?_, ?_, ?_⟩
  · simp only [searchCascade, true_and]
    rw [if_pos hq]
  · intro d hd
    rw [htake] at hd
    obtain ⟨c, hc, rfl⟩ := List.mem_map.mp hd
    have hcf : c ∈ pool50.filter (chunkMatches (queryWords query)) :=
      List.take_subset _ _ hc
    have hcm : chunkMatches (queryWords query) c = true := (List.mem_filter.mp hcf).2
    refine ⟨rfl, ?_⟩
    simp only [chunkMatches, List.any_eq_true, Bool.and_eq_true, decide_eq_true_eq] at hcm
    obtain ⟨w, hw, hlen, hsub⟩ := hcm
    exact ⟨w, hw, hlen, hsub⟩
  · rw [htake]
    simp only [List.length_map, List.length_take]
    omega
  · intro d hd
    simp only [stage3, List.mem_map] at hd
    obtain ⟨c, _, rfl⟩ := hd
    rfl
  · simpa [stage3] using h5
  · intro docs hd
    have hc1 : ¬ (docs = [] ∧ query ≠ []) := fun hcontra => hd hcontra.1
    simp only [searchCascade]
    rw [if_neg hc1, if_neg hd]
  · intro m
    have hc2 : ¬ (([] : List Char) ≠ []) := fun hcontra => hcontra rfl
    simp only [searchCascade, true_and]
    rw [if_neg hc2, if_pos rfl]

theorem fallback_cascade_spec_witness :
    ((("abc").data ≠ [] ∧ 1 ≤ 1 ∧ ([] : List Chunk).length ≤ 5)) ∧
    (searchCascade [] (("abc").data) 1 [] []
       = (if stage2Loop (queryWords (("abc").data)) 1 [] [] = [] then stage3 []
          else stage2Loop (queryWords (("abc").data)) 1 [] []) ∧
     stage2Loop (queryWords (("abc").data)) 1 [] []
       = ((List.filter (chunkMatches (queryWords (("abc").data))) []).take 1).map
           (fun c => ⟨c.content, c.metadata, 4/10⟩) ∧
     (∀ d ∈ stage2Loop (queryWords (("abc").data)) 1 [] [],
         d.distance = 4/10 ∧
         ∃ w ∈ queryWords (("abc").data), 2 < w.length ∧
           containsSub w (lowerChars d.content) = true) ∧
     (stage2Loop (queryWords (("abc").data)) 1 [] []).length ≤ 1 ∧
     (∀ d ∈ stage3 ([] : List Chunk), d.distance = 6/10) ∧
     (stage3 ([] : List Chunk)).length ≤ 5 ∧
     (∀ docs : List ScoredDoc, docs ≠ [] → searchCascade docs (("abc").data) 1 [] [] = docs) ∧
     (∀ m : ℕ, searchCascade [] [] m [] [] = stage3 ([] : List Chunk))) :=
  ⟨⟨by decide, by decide, by decide⟩,
   fallback_cascade_spec (("abc").data) 1 [] [] (by decide) (by decide) (by decide)⟩

/-! ## Splitter lemmas -/

theorem stripChars_append_space (t : List Char) : stripChars (t ++ [' ']) = stripChars t := by
  have h : isWs ' ' = true := by decide
  simp [stripChars, List.reverse_append, List.dropWhile_cons, h]

theorem stripChars_length_le (t : List Char) : (stripChars t).length ≤ t.length := by
  unfold stripChars
  calc ((t.reverse.dropWhile isWs).reverse.dropWhile isWs).length
      ≤ (t.reverse.dropWhile isWs).reverse.length :=
        (List.dropWhile_sublist _).length_le
    _ = (t.reverse.dropWhile isWs).length := List.length_reverse _
    _ ≤ t.reverse.length := (List.dropWhile_sublist _).length_le
    _ = t.length := List.length_reverse _

theorem thaiLoop_spec (sents₀ : List (List Char)) :
    ∀ (sents : List (List Char)) (cur : List Char),
      (∀ s ∈ sents, s ∈ sents₀) →
      (cur = [] ∨ ∃ t, cur = t ++ [' '] ∧
        (t.length ≤ 600 ∨ (t ∈ sents₀ ∧ 600 < t.length))) →
      ∀ c ∈ thaiLoop sents cur,
        c.length ≤ 600 ∨ ∃ s ∈ sents₀, 600 < s.length ∧ c = stripChars s
  | [], cur, _, hinv, c, hc => by
    rcases hinv with rfl | ⟨t, rfl, ht⟩
    · simp [thaiLoop] at hc
    · have hne : t ++ [' '] ≠ [] := by simp
      rw [thaiLoop, if_neg hne] at hc
      rcases List.mem_singleton.mp hc with rfl
      rcases ht with h | ⟨hmem, hlen⟩
      · left
        calc (stripChars (t ++ [' '])).length = (stripChars t).length := by
              rw [stripChars_append_space]
          _ ≤ t.length := stripChars_length_le t
          _ ≤ 600 := h
      · right
        exact ⟨t, hmem, hlen, (stripChars_append_space t)⟩
  | s :: rest, cur, hmem, hinv, c, hc => by
    rw [thaiLoop] at hc
    split at hc
    · refine thaiLoop_spec sents₀ rest (cur ++ s ++ [' '])
        (fun x hx => hmem x (List.mem_cons_of_mem s hx)) ?_ c hc
      right
      refine ⟨cur ++ s, by rw [List.append_assoc], Or.inl ?_⟩
      next hle => simpa using hle
    · rcases List.mem_append.mp hc with hcl | hcr
      · rcases hinv with rfl | ⟨t, rfl, ht⟩
        · simp at hcl
        · have hne : t ++ [' '] ≠ [] := by simp
          rw [if_neg hne] at hcl
          rcases List.mem_singleton.mp hcl with rfl
          rcases ht with h | ⟨hmem', hlen⟩
          · left
            calc (stripChars (t ++ [' '])).length = (stripChars t).length := by
                  rw [stripChars_append_space]
              _ ≤ t.length := stripChars_length_le t
              _ ≤ 600 := h
          · right
            exact ⟨t, hmem', hlen, (stripChars_append_space t)⟩
      · refine thaiLoop_spec sents₀ rest (s ++ [' '])
          (fun x hx => hmem x (List.mem_cons_of_mem s hx)) ?_ c hcr
        right
        refine ⟨s, rfl, ?_⟩
        by_cases hsl : s.length ≤ 600
        · exact Or.inl hsl
        · exact Or.inr ⟨hmem s (List.mem_cons_self s rest), by omega⟩

theorem rfindSpaceAux_spec (text : List Char) (start : ℕ) :
    ∀ (k i : ℕ), rfindSpaceAux text start k = some i →
      start ≤ i ∧ i < start + k ∧ text.getD i 'x' = ' ' ∧
      ∀ j, i < j → j < start + k → text.getD j 'x' ≠ ' '
  | 0, i, h => by simp [rfindSpaceAux] at h
  | k + 1, i, h => by
    rw [rfindSpaceAux] at h
    split at h
    · next hsp =>
      rcases Option.some_injective _ h with rfl
      exact ⟨by omega, by omega, hsp, fun j hj1 hj2 => by omega⟩
    · next hsp =>
      obtain ⟨h1, h2, h3, h4⟩ := rfindSpaceAux_spec text start k i h
      refine ⟨h1, by omega, h3, fun j hj1 hj2 => ?_⟩
      by_cases hje : j = start + k
      · rw [hje]; exact hsp
      · exact h4 j hj1 (by omega)

theorem windowEnd_lb (text : List Char) (start : ℕ) :
    start + 301 ≤ windowEnd text start := by
  unfold windowEnd
  split
  · split
    · split
      · next h => omega
      · omega
    · omega
  · omega

theorem windowEnd_ub (text : List Char) (start : ℕ) :
    windowEnd text start ≤ start + 600 := by
  unfold windowEnd
  split
  · split
    · next ls hls =>
      split
      · have := (rfindSpaceAux_spec text start ((start + 600) - start) ls hls).2.1
        omega
      · omega
    · omega
  · omega

theorem nextStart_lb (text : List Char) (start : ℕ) :
    start + 180 ≤ nextStart text start := by
  have := windowEnd_lb text start
  unfold nextStart
  omega

theorem sliceList_length_le (text : List Char) (start e : ℕ) :
    (sliceList text start e).length ≤ e - start := by
  simp [sliceList]

theorem defaultSplitFuel_len :
    ∀ (fuel start : ℕ) (text : List Char) (c : List Char),
      c ∈ defaultSplitFuel text fuel start → c.length ≤ 600
  | 0, start, text, c, hc => by simp [defaultSplitFuel] at hc
  | fuel + 1, start, text, c, hc => by
    rw [defaultSplitFuel] at hc
    split at hc
    · have hchunk : (sliceList text start (windowEnd text start)).length ≤ 600 := by
        have h1 := sliceList_length_le text start (windowEnd text start)
        have h2 := windowEnd_ub text start
        omega
      split at hc
      · exact defaultSplitFuel_len fuel (nextStart text start) text c hc
      · rcases List.mem_cons.mp hc with rfl | hcr
        · exact hchunk
        · exact defaultSplitFuel_len fuel (nextStart text start) text c hcr
    · simp at hc

/-! ## C6: chunk size invariant -/

/-- Claim C6: for every input text and for both splitting modes of
`_split_text` with `chunk_size = 600`, every emitted chunk has length at
most 600, except that in language-aware (Thai) mode a chunk stemming from a
single tokenized sentence longer than 600 characters (the chunk is that
sentence, stripped) may exceed it. -/
theorem chunk_size_invariant (text : List Char) (sentences : List (List Char))
    (c : List Char) (hc : c ∈ split_text text sentences) :
    c.length ≤ 600 ∨ ∃ s ∈ sentences, 600 < s.length ∧ c = stripChars s := by
  unfold split_text at hc
  split at hc
  · simp at hc
  · split at hc
    · exact thaiLoop_spec sentences sentences [] (fun s hs => hs) (Or.inl rfl) c hc
    · left
      unfold defaultSplit at hc
      exact defaultSplitFuel_len _ _ _ c hc

theorem chunk_size_invariant_witness :
    (("ab").data ∈ split_text (("ab").data) [] ∧
     (("ab").data.length ≤ 600 ∨
       ∃ s ∈ ([] : List (List Char)), 600 < s.length ∧ ("ab").data = stripChars s)) :=
  ⟨by decide, chunk_size_invariant (("ab").data) [] (("ab").data) (by decide)⟩

/-! ## C7: default-mode window stepping -/

/-- Claim C7 (amended): in default mode, after whitespace normalization the
loop emits the window `text[start:end]` (if non-blank) and continues from
`end - overlap` where `end` is the possibly backed-off right edge — so each
successive window start equals the previous window's right edge minus
`overlap`, which equals `start + (chunk_size - overlap)` exactly when the
hard cut is taken.  The right edge is backed off to the nearest preceding
space when that space lies strictly later than `chunk_size/2` into the
window (`last_space > start + 300`), and the hard cut `start + 600` is
accepted otherwise. -/
theorem window_step_spec (t : List Char) (start fuel : ℕ)
    (h : start < t.length) (hf : t.length - start < fuel) :
    defaultSplitFuel t fuel start
      = (if stripChars (sliceList t start (windowEnd t start)) = [] then []
         else [sliceList t start (windowEnd t start)])
        ++ defaultSplitFuel t (fuel - 1) (nextStart t start) ∧
    nextStart t start = windowEnd t start - 120 ∧
    (∀ ls, rfindSpace t start (start + 600) = some ls → start + 300 < ls →
      start + 600 < t.length →
      windowEnd t start = ls ∧ t.getD ls 'x' = ' ' ∧
      ∀ j, ls < j → j < start + 600 → t.getD j 'x' ≠ ' ') ∧
    (rfindSpace t start (start + 600) = none →
      windowEnd t start = start + 600 ∧ nextStart t start = start + 480) ∧
    (∀ ls, rfindSpace t start (start + 600) = some ls → ls ≤ start + 300 →
      windowEnd t start = start + 600 ∧ nextStart t start = start + 480) ∧
    (¬ start + 600 < t.length →
      windowEnd t start = start + 600 ∧ nextStart t start = start + 480) := by
  refine ⟨?_, rfl, ?_, ?_, ?_, ?_⟩
  · match fuel, hf with
    | f + 1, _ =>
      rw [defaultSplitFuel, if_pos h]
      by_cases hs : stripChars (sliceList t start (windowEnd t start)) = [] <;>
        simp [hs]
  · intro ls hls h300 h600
    have hspec := rfindSpaceAux_spec t start ((start + 600) - start) ls hls
    refine ⟨?_, hspec.2.2.1, ?_⟩
    · unfold windowEnd
      rw [if_pos h600, hls]
      simp [h300]
    · intro j hj1 hj2
      exact hspec.2.2.2 j hj1 (by omega)
  · intro hnone
    have hwe : windowEnd t start = start + 600 := by
      unfold windowEnd
      split
      · rw [hnone]
      · rfl
    exact ⟨hwe, by unfold nextStart; omega⟩
  · intro ls hls h300
    have hwe : windowEnd t start = start + 600 := by
      unfold windowEnd
      split
      · rw [hls]
        simp [Nat.not_lt.mpr h300]
      · rfl
    exact ⟨hwe, by unfold nextStart; omega⟩
  · intro h600
    have hwe : windowEnd t start = start + 600 := by
      unfold windowEnd
      rw [if_neg h600]
    exact ⟨hwe, by unfold nextStart; omega⟩

theorem window_step_spec_witness :
    (0 < (("aa").data).length ∧ (("aa").data).length - 0 < 3) ∧
    (defaultSplitFuel (("aa").data) 3 0
       = (if stripChars (sliceList (("aa").data) 0 (windowEnd (("aa").data) 0)) = [] then []
          else [sliceList (("aa").data) 0 (windowEnd (("aa").data) 0)])
         ++ defaultSplitFuel (("aa").data) (3 - 1) (nextStart (("aa").data) 0) ∧
     nextStart (("aa").data) 0 = windowEnd (("aa").data) 0 - 120 ∧
     (∀ ls, rfindSpace (("aa").data) 0 (0 + 600) = some ls → 0 + 300 < ls →
       0 + 600 < (("aa").data).length →
       windowEnd (("aa").data) 0 = ls ∧ (("aa").data).getD ls 'x' = ' ' ∧
       ∀ j, ls < j → j < 0 + 600 → (("aa").data).getD j 'x' ≠ ' ') ∧
     (rfindSpace (("aa").data) 0 (0 + 600) = none →
       windowEnd (("aa").data) 0 = 0 + 600 ∧ nextStart (("aa").data) 0 = 0 + 480) ∧
     (∀ ls, rfindSpace (("aa").data) 0 (0 + 600) = some ls → ls ≤ 0 + 300 →
       windowEnd (("aa").data) 0 = 0 + 600 ∧ nextStart (("aa").data) 0 = 0 + 480) ∧
     (¬ 0 + 600 < (("aa").data).length →
       windowEnd (("aa").data) 0 = 0 + 600 ∧ nextStart (("aa").data) 0 = 0 + 480)) :=
  ⟨⟨by decide, by decide⟩, window_step_spec (("aa").data) 0 3 (by decide) (by decide)⟩

set_option maxRecDepth 4000 in
/-- Claim C7 counterexample: on a 601-character text whose only space sits
at index 599, the back-off fires (`599 > 300`), the first window's right
edge becomes 599, and the next window start is `599 - 120 = 479` — not
`0 + (600 - 120) = 480` as the claim's stepping rule states. -/
theorem window_step_cex :
    nextStart (List.replicate 599 'a' ++ [' ', 'a']) 0 = 479 ∧
    479 ≠ 0 + (600 - 120) := by
  constructor
  · decide
  · decide

/-! ## C10: termination of the default-mode splitter -/

theorem defaultSplitFuel_fuel_irrelevant :
    ∀ (N : ℕ) (text : List Char) (start f g : ℕ),
      text.length - start ≤ N → text.length - start < f → text.length - start < g →
      defaultSplitFuel text f start = defaultSplitFuel text g start := by
  intro N
  induction N with
  | zero =>
    intro text start f g hN hf hg
    match f, g with
    | f' + 1, g' + 1 =>
      have hge : text.length ≤ start := by omega
      rw [defaultSplitFuel, defaultSplitFuel, if_neg (by omega), if_neg (by omega)]
  | succ N ih =>
    intro text start f g hN hf hg
    match f, g with
    | f' + 1, g' + 1 =>
      by_cases h : start < text.length
      · have hns := nextStart_lb text start
        have hrec : defaultSplitFuel text f' (nextStart text start)
            = defaultSplitFuel text g' (nextStart text start) :=
          ih text (nextStart text start) f' g' (by omega) (by omega) (by omega)
        rw [defaultSplitFuel, defaultSplitFuel, if_pos h, if_pos h, hrec]
      · rw [defaultSplitFuel, defaultSplitFuel, if_neg h, if_neg h]

/-- Claim C10: with the default parameters `chunk_size = 600`,
`overlap = 120`, every iteration of the default-mode loop moves the right
edge strictly past `start + chunk_size/2` (the back-off never moves it to or
before `start + 300`), so the window start strictly increases by at least
`chunk_size/2 - overlap = 180 > 0` each step; consequently the loop
terminates on every input: its result is independent of the fuel once the
fuel exceeds the remaining text length, so `defaultSplit`'s budget of
`length + 1` iterations always suffices and a finite list is returned. -/
theorem default_split_termination (text : List Char) (start f g : ℕ)
    (hf : text.length - start < f) (hg : text.length - start < g) :
    start + 300 < windowEnd text start ∧
    start + 180 ≤ nextStart text start ∧
    start < nextStart text start ∧
    defaultSplitFuel text f start = defaultSplitFuel text g start ∧
    defaultSplit text
      = defaultSplitFuel (normalizeWs text) ((normalizeWs text).length + 1) 0 := by
  have h1 := windowEnd_lb text start
  have h2 := nextStart_lb text start
  exact ⟨by omega, h2, by omega,
    defaultSplitFuel_fuel_irrelevant (text.length - start) text start f g le_rfl hf hg,
    rfl⟩

theorem default_split_termination_witness :
    ((("ab").data.length - 0 < 3 ∧ (("ab").data.length - 0 < 4)) ∧
     (0 + 300 < windowEnd (("ab").data) 0 ∧
      0 + 180 ≤ nextStart (("ab").data) 0 ∧
      0 < nextStart (("ab").data) 0 ∧
      defaultSplitFuel (("ab").data) 3 0 = defaultSplitFuel (("ab").data) 4 0 ∧
      defaultSplit (("ab").data)
        = defaultSplitFuel (normalizeWs (("ab").data))
            ((normalizeWs (("ab").data)).length + 1) 0)) :=
  ⟨⟨by decide, by decide⟩,
   default_split_termination (("ab").data) 0 3 4 (by decide) (by decide)⟩

/-! ## Citation-map lemmas -/

theorem keysOf_cons (k : List Char) (c : Citation) (m : List (List Char × Citation)) :
    keysOf ((k, c) :: m) = k :: keysOf m := rfl

theorem keysOf_updateCites (fid : List Char) (c : Citation) :
    ∀ m : List (List Char × Citation),
      keysOf (updateCites m fid c)
        = if fid ∈ keysOf m then keysOf m else keysOf m ++ [fid]
  | [] => by simp [updateCites, keysOf]
  | (k, old) :: rest => by
    rw [updateCites]
    by_cases hk : k = fid
    · subst hk
      rw [if_pos rfl]
      have hmem : k ∈ keysOf ((k, old) :: rest) := by
        rw [keysOf_cons]
        exact List.mem_cons_self _ _
      rw [if_pos hmem]
      by_cases ho : old.relevance_score < c.relevance_score
      · rw [if_pos ho, keysOf_cons, keysOf_cons]
      · rw [if_neg ho]
    · rw [if_neg hk]
      simp only [keysOf_cons]
      rw [keysOf_updateCites fid c rest]
      by_cases hmem : fid ∈ keysOf rest
      · rw [if_pos hmem, if_pos (List.mem_cons_of_mem k hmem)]
      · have hne2 : fid ∉ k :: keysOf rest := by
          intro hcon
          rcases List.mem_cons.mp hcon with h1 | h1
          · exact hk h1.symm
          · exact hmem h1
        rw [if_neg hmem, if_neg hne2, List.cons_append]

theorem mem_keysOf_updateCites (fid k : List Char) (c : Citation)
    (m : List (List Char × Citation)) :
    k ∈ keysOf (updateCites m fid c) ↔ (k ∈ keysOf m ∨ k = fid) := by
  rw [keysOf_updateCites]
  by_cases hmem : fid ∈ keysOf m
  · simp only [if_pos hmem]
    constructor
    · exact Or.inl
    · rintro (h | rfl)
      · exact h
      · exact hmem
  · simp [if_neg hmem]

theorem nodup_keysOf_updateCites (fid : List Char) (c : Citation)
    (m : List (List Char × Citation)) (h : List.Nodup (keysOf m)) :
    List.Nodup (keysOf (updateCites m fid c)) := by
  rw [keysOf_updateCites]
  by_cases hmem : fid ∈ keysOf m
  · simpa [if_pos hmem] using h
  · simp [if_neg hmem, List.nodup_append, h, hmem]

theorem updateCites_fidinv (fid : List Char) (c : Citation) (hc : c.file_id = fid) :
    ∀ m : List (List Char × Citation), (∀ p ∈ m, (p.2).file_id = p.1) →
      ∀ p ∈ updateCites m fid c, (p.2).file_id = p.1
  | [], _, p, hp => by
    simp only [updateCites, List.mem_singleton] at hp
    subst hp
    exact hc
  | (k, old) :: rest, hm, p, hp => by
    rw [updateCites] at hp
    by_cases hk : k = fid
    · subst hk
      rw [if_pos rfl] at hp
      by_cases ho : old.relevance_score < c.relevance_score
      · rw [if_pos ho] at hp
        rcases List.mem_cons.mp hp with rfl | hrest
        · exact hc
        · exact hm _ (List.mem_cons_of_mem _ hrest)
      · rw [if_neg ho] at hp
        exact hm _ hp
    · rw [if_neg hk] at hp
      rcases List.mem_cons.mp hp with rfl | hrest
      · exact hm _ (List.mem_cons_self _ _)
      · exact updateCites_fidinv fid c hc rest
          (fun q hq => hm q (List.mem_cons_of_mem _ hq)) p hrest

theorem mScores_cons (k k0 : List Char) (x : Citation) (m : List (List Char × Citation)) :
    mScores k ((k0, x) :: m)
      = if k0 = k then x.relevance_score :: mScores k m else mScores k m := by
  by_cases h : k0 = k <;> simp [mScores, List.filter_cons, h]

theorem mScores_nil_of_not_mem (k : List Char) :
    ∀ m : List (List Char × Citation), k ∉ keysOf m → mScores k m = []
  | [], _ => by simp [mScores]
  | (k0, old) :: rest, hk => by
    have hne : k0 ≠ k := fun h => hk (by rw [keysOf_cons, h]; exact List.mem_cons_self _ _)
    have hrest : k ∉ keysOf rest := fun h =>
      hk (by rw [keysOf_cons]; exact List.mem_cons_of_mem _ h)
    rw [mScores_cons, if_neg hne]
    exact mScores_nil_of_not_mem k rest hrest

theorem mScores_updateCites_ne (fid k : List Char) (c : Citation) (hne : k ≠ fid) :
    ∀ m : List (List Char × Citation), mScores k (updateCites m fid c) = mScores k m
  | [] => by
    have h2 : fid ≠ k := fun h => hne h.symm
    simp [updateCites, mScores, List.filter_cons, h2]
  | (k0, old) :: rest => by
    rw [updateCites]
    by_cases hk0 : k0 = fid
    · subst hk0
      rw [if_pos rfl]
      have h2 : k0 ≠ k := fun h => hne (h ▸ rfl)
      by_cases ho : old.relevance_score < c.relevance_score <;>
        simp [ho, mScores_cons, h2]
    · rw [if_neg hk0, mScores_cons, mScores_cons]
      rw [mScores_updateCites_ne fid k c hne rest]

theorem mScores_updateCites_self (fid : List Char) (c : Citation) :
    ∀ m : List (List Char × Citation), List.Nodup (keysOf m) →
      ∃ v, mScores fid (updateCites m fid c) = [v] ∧
        v ∈ c.relevance_score :: mScores fid m ∧
        ∀ s ∈ c.relevance_score :: mScores fid m, s ≤ v
  | [], _ => by
    refine ⟨c.relevance_score, ?_, List.mem_cons_self _ _, ?_⟩
    · simp [updateCites, mScores, List.filter_cons]
    · intro s hs
      simp [mScores] at hs
      rw [hs]
  | (k0, old) :: rest, hnd => by
    rw [keysOf_cons, List.nodup_cons] at hnd
    obtain ⟨hk0rest, hndrest⟩ := hnd
    rw [updateCites]
    by_cases hk0 : k0 = fid
    · subst hk0
      rw [if_pos rfl]
      have hnil : mScores k0 rest = [] := mScores_nil_of_not_mem k0 rest hk0rest
      by_cases ho : old.relevance_score < c.relevance_score
      · refine ⟨c.relevance_score, ?_, List.mem_cons_self _ _, ?_⟩
        · rw [if_pos ho, mScores_cons, if_pos rfl, hnil]
        · intro s hs
          rw [mScores_cons, if_pos rfl, hnil] at hs
          rcases List.mem_cons.mp hs with rfl | hs2
          · exact le_refl _
          · rcases List.mem_singleton.mp hs2 with rfl
            exact le_of_lt ho
      · refine ⟨old.relevance_score, ?_, ?_, ?_⟩
        · rw [if_neg ho, mScores_cons, if_pos rfl, hnil]
        · rw [mScores_cons, if_pos rfl, hnil]
          exact List.mem_cons_of_mem _ (List.mem_cons_self _ _)
        · intro s hs
          rw [mScores_cons, if_pos rfl, hnil] at hs
          rcases List.mem_cons.mp hs with rfl | hs2
          · exact le_of_not_lt ho
          · rcases List.mem_singleton.mp hs2 with rfl
            exact le_refl _
    · rw [if_neg hk0]
      obtain ⟨v, hv1, hv2, hv3⟩ := mScores_updateCites_self fid c rest hndrest
      refine ⟨v, ?_, ?_, ?_⟩
      · rw [mScores_cons, if_neg hk0]
        exact hv1
      · rw [mScores_cons, if_neg hk0]
        exact hv2
      · intro s hs
        rw [mScores_cons, if_neg hk0] at hs
        exact hv3 s hs

theorem mScores_subsingleton (k : List Char) :
    ∀ m : List (List Char × Citation), List.Nodup (keysOf m) →
      ∀ a b, a ∈ mScores k m → b ∈ mScores k m → a = b
  | [], _, a, b, ha, _ => by simp [mScores] at ha
  | (k0, old) :: rest, hnd, a, b, ha, hb => by
    rw [keysOf_cons, List.nodup_cons] at hnd
    obtain ⟨hk0rest, hndrest⟩ := hnd
    rw [mScores_cons] at ha hb
    by_cases hk0 : k0 = k
    · subst hk0
      rw [if_pos rfl, mScores_nil_of_not_mem k0 rest hk0rest] at ha hb
      rcases List.mem_singleton.mp ha with rfl
      rcases List.mem_singleton.mp hb with rfl
      rfl
    · rw [if_neg hk0] at ha hb
      exact mScores_subsingleton k rest hndrest a b ha hb

theorem buildCites_keys (names : List Char → List Char) (broad : Bool) :
    ∀ (rs : List SearchResult) (m : List (List Char × Citation)),
      (∀ r ∈ rs, stripChars r.content ≠ []) →
      List.Nodup (keysOf m) →
      (List.Nodup (keysOf (buildCites names broad rs m)) ∧
       ∀ k, k ∈ keysOf (buildCites names broad rs m)
         ↔ (k ∈ keysOf m ∨ k ∈ rs.map (fun r => r.file_id)))
  | [], m, _, hnd => by
    refine ⟨hnd, fun k => ?_⟩
    simp [buildCites]
  | r :: rest, m, hb, hnd => by
    rw [buildCites,
      if_neg (hb r (List.mem_cons_self _ _))]
    have hbrest : ∀ q ∈ rest, stripChars q.content ≠ [] :=
      fun q hq => hb q (List.mem_cons_of_mem _ hq)
    have hndm' := nodup_keysOf_updateCites r.file_id (resultCitation names broad r) m hnd
    obtain ⟨h1, h2⟩ := buildCites_keys names broad rest
      (updateCites m r.file_id (resultCitation names broad r)) hbrest hndm'
    refine ⟨h1, fun k => ?_⟩
    rw [h2 k, mem_keysOf_updateCites]
    simp only [List.map_cons, List.mem_cons]
    constructor
    · rintro ((h | h) | h)
      · exact Or.inl h
      · exact Or.inr (Or.inl h)
      · exact Or.inr (Or.inr h)
    · rintro (h | h | h)
      · exact Or.inl (Or.inl h)
      · exact Or.inl (Or.inr h)
      · exact Or.inr h

theorem buildCites_fidinv (names : List Char → List Char) (broad : Bool) :
    ∀ (rs : List SearchResult) (m : List (List Char × Citation)),
      (∀ p ∈ m, (p.2).file_id = p.1) →
      ∀ p ∈ buildCites names broad rs m, (p.2).file_id = p.1
  | [], m, hm, p, hp => hm p hp
  | r :: rest, m, hm, p, hp => by
    rw [buildCites] at hp
    by_cases hblank : stripChars r.content = []
    · rw [if_pos hblank] at hp
      exact buildCites_fidinv names broad rest m hm p hp
    · rw [if_neg hblank] at hp
      exact buildCites_fidinv names broad rest _
        (updateCites_fidinv r.file_id (resultCitation names broad r) rfl m hm) p hp

theorem scoresOf_cons (broad : Bool) (k : List Char) (r : SearchResult)
    (rs : List SearchResult) :
    scoresOf broad k (r :: rs)
      = if r.file_id = k then citationScore broad r.distance :: scoresOf broad k rs
        else scoresOf broad k rs := by
  by_cases h : r.file_id = k <;> simp [scoresOf, List.filter_cons, h]

theorem buildCites_scores (names : List Char → List Char) (broad : Bool) :
    ∀ (rs : List SearchResult) (m : List (List Char × Citation)) (k : List Char),
      (∀ r ∈ rs, stripChars r.content ≠ []) →
      List.Nodup (keysOf m) →
      ∀ s', s' ∈ mScores k (buildCites names broad rs m) →
        (s' ∈ mScores k m ++ scoresOf broad k rs ∧
         ∀ s ∈ mScores k m ++ scoresOf broad k rs, s ≤ s')
  | [], m, k, _, hnd, s', hs' => by
    rw [buildCites] at hs'
    have hnil : scoresOf broad k [] = [] := by simp [scoresOf]
    rw [hnil, List.append_nil]
    exact ⟨hs', fun s hs => le_of_eq (mScores_subsingleton k m hnd s s' hs hs')⟩
  | r :: rest, m, k, hb, hnd, s', hs' => by
    rw [buildCites, if_neg (hb r (List.mem_cons_self _ _))] at hs'
    have hbrest : ∀ q ∈ rest, stripChars q.content ≠ [] :=
      fun q hq => hb q (List.mem_cons_of_mem _ hq)
    have hndm' := nodup_keysOf_updateCites r.file_id (resultCitation names broad r) m hnd
    obtain ⟨ih1, ih2⟩ := buildCites_scores names broad rest
      (updateCites m r.file_id (resultCitation names broad r)) k hbrest hndm' s' hs'
    rw [scoresOf_cons]
    by_cases hk : r.file_id = k
    · subst hk
      obtain ⟨v, hv1, hv2, hv3⟩ :=
        mScores_updateCites_self r.file_id (resultCitation names broad r) m hnd
      rw [hv1] at ih1 ih2
      have hcs : (resultCitation names broad r).relevance_score
          = citationScore broad r.distance := rfl
      rw [if_pos rfl]
      constructor
      · rcases List.mem_append.mp ih1 with hsv | hsr
        · rcases List.mem_singleton.mp hsv with rfl
          rcases List.mem_cons.mp hv2 with rfl | hvm
          · rw [hcs]
            exact List.mem_append.mpr (Or.inr (List.mem_cons_self _ _))
          · exact List.mem_append.mpr (Or.inl hvm)
        · exact List.mem_append.mpr (Or.inr (List.mem_cons_of_mem _ hsr))
      · have hvle : v ≤ s' :=
          ih2 v (List.mem_append.mpr (Or.inl (List.mem_singleton.mpr rfl)))
        intro s hs
        rcases List.mem_append.mp hs with hsm | hsc
        · exact le_trans (hv3 s (List.mem_cons_of_mem _ hsm)) hvle
        · rcases List.mem_cons.mp hsc with rfl | hsr
          · exact le_trans (by rw [← hcs]; exact hv3 _ (List.mem_cons_self _ _)) hvle
          · exact ih2 s (List.mem_append.mpr (Or.inr hsr))
    · rw [if_neg hk]
      have hne : k ≠ r.file_id := fun h => hk h.symm
      rw [mScores_updateCites_ne r.file_id k (resultCitation names broad r) hne m] at ih1 ih2
      exact ⟨ih1, ih2⟩

/-! ## C5: citation deduplication -/

/-- Claim C5: given a merged list of search results spanning some number M
of distinct source file ids, the produced citation list contains exactly M
citations — its file ids are duplicate-free and are exactly the file ids of
the results — each citation carries the highest relevance score among that
file's results, and the final list is sorted in descending order of
relevance score.  (Results whose content is pure whitespace are skipped by
the loop; stored chunks are never blank, hence the hypothesis.) -/
theorem citation_dedup_spec (names : List Char → List Char) (broad : Bool)
    (results : List SearchResult)
    (hb : ∀ r ∈ results, stripChars r.content ≠ []) :
    (citationsOf names broad results).length
      = ((results.map (fun r => r.file_id)).dedup).length ∧
    ((citationsOf names broad results).map (fun c => c.file_id)).Nodup ∧
    (∀ k, k ∈ (citationsOf names broad results).map (fun c => c.file_id)
        ↔ k ∈ results.map (fun r => r.file_id)) ∧
    (∀ c ∈ citationsOf names broad results,
       c.relevance_score ∈ scoresOf broad c.file_id results ∧
       ∀ s ∈ scoresOf broad c.file_id results, s ≤ c.relevance_score) ∧
    List.Sorted citeGE (citationsOf names broad results) := by
  have hnd0 : List.Nodup (keysOf ([] : List (List Char × Citation))) := by simp [keysOf]
  obtain ⟨hknd, hkmem⟩ := buildCites_keys names broad results [] hb hnd0
  have hfid := buildCites_fidinv names broad results []
    (by intro p hp; simp at hp)
  have hperm : List.Perm (citationsOf names broad results)
      ((buildCites names broad results []).map Prod.snd) :=
    List.perm_insertionSort citeGE _
  have hmap : ((buildCites names broad results []).map Prod.snd).map (fun c => c.file_id)
      = keysOf (buildCites names broad results []) := by
    rw [List.map_map]
    exact List.map_congr_left (fun p hp => hfid p hp)
  have hpermfid : List.Perm ((citationsOf names broad results).map (fun c => c.file_id))
      (keysOf (buildCites names broad results [])) := by
    rw [← hmap]
    exact hperm.map _
  have hmemk : ∀ k, k ∈ keysOf (buildCites names broad results [])
      ↔ k ∈ results.map (fun r => r.file_id) := by
    intro k
    rw [hkmem k]
    simp [keysOf]
  refine ⟨?_, ?_, ?_, ?_, ?_⟩
  · have h1 : (citationsOf names broad results).length
        = (keysOf (buildCites names broad results [])).length := by
      rw [hperm.length_eq]
      simp [keysOf]
    rw [h1]
    have h2 : (keysOf (buildCites names broad results [])).toFinset
        = (results.map (fun r => r.file_id)).toFinset := by
      apply Finset.ext
      intro a
      simp only [List.mem_toFinset]
      exact hmemk a
    calc (keysOf (buildCites names broad results [])).length
        = (keysOf (buildCites names broad results [])).toFinset.card :=
          (List.toFinset_card_of_nodup hknd).symm
      _ = (results.map (fun r => r.file_id)).toFinset.card := by rw [h2]
      _ = ((results.map (fun r => r.file_id)).dedup).length := List.card_toFinset _
  · exact hpermfid.nodup_iff.mpr hknd
  · intro k
    rw [hpermfid.mem_iff]
    exact hmemk k
  · intro c hc
    have hcv : c ∈ (buildCites names broad results []).map Prod.snd := hperm.mem_iff.mp hc
    obtain ⟨p, hp, hpc⟩ := List.mem_map.mp hcv
    subst hpc
    have hfidp : (p.2).file_id = p.1 := hfid p hp
    have hms : (p.2).relevance_score ∈ mScores p.1 (buildCites names broad results []) := by
      apply List.mem_map_of_mem
      apply List.mem_filter.mpr
      exact ⟨hp, by simp⟩
    obtain ⟨hin, hub⟩ := buildCites_scores names broad results [] p.1 hb hnd0 _ hms
    have hnil : mScores p.1 ([] : List (List Char × Citation)) = [] := by simp [mScores]
    rw [hnil, List.nil_append] at hin hub
    rw [hfidp]
    exact ⟨hin, hub⟩
  · exact List.sorted_insertionSort citeGE _

theorem citation_dedup_spec_witness :
    (∀ r ∈ [(⟨("hello").data, ("f1").data, ("1").data, 1⟩ : SearchResult)],
        stripChars r.content ≠ []) ∧
    ((citationsOf (fun k => k) false
        [(⟨("hello").data, ("f1").data, ("1").data, 1⟩ : SearchResult)]).length
      = (([(⟨("hello").data, ("f1").data, ("1").data, 1⟩ : SearchResult)].map
            (fun r => r.file_id)).dedup).length ∧
     ((citationsOf (fun k => k) false
        [(⟨("hello").data, ("f1").data, ("1").data, 1⟩ : SearchResult)]).map
          (fun c => c.file_id)).Nodup ∧
     (∀ k, k ∈ (citationsOf (fun k => k) false
          [(⟨("hello").data, ("f1").data, ("1").data, 1⟩ : SearchResult)]).map
            (fun c => c.file_id)
        ↔ k ∈ [(⟨("hello").data, ("f1").data, ("1").data, 1⟩ : SearchResult)].map
            (fun r => r.file_id)) ∧
     (∀ c ∈ citationsOf (fun k => k) false
          [(⟨("hello").data, ("f1").data, ("1").data, 1⟩ : SearchResult)],
        c.relevance_score ∈ scoresOf false c.file_id
          [(⟨("hello").data, ("f1").data, ("1").data, 1⟩ : SearchResult)] ∧
        ∀ s ∈ scoresOf false c.file_id
            [(⟨("hello").data, ("f1").data, ("1").data, 1⟩ : SearchResult)],
          s ≤ c.relevance_score) ∧
     List.Sorted citeGE (citationsOf (fun k => k) false
        [(⟨("hello").data, ("f1").data, ("1").data, 1⟩ : SearchResult)])) :=
  ⟨by decide,
   citation_dedup_spec (fun k => k) false
     [(⟨("hello").data, ("f1").data, ("1").data, 1⟩ : SearchResult)] (by decide)⟩
